import Mathlib

/-!
Verification of the weekly-windowing and section-classification core of
`status-reportr` (Go).  The Go sources are shallowly embedded as executable
Lean definitions:

* instants (`time.Time`) are integers counting seconds, with second 0 chosen
  at a Sunday 00:00 UTC; the Go zero value `time.Time{}` used by the code as
  the "not done" sentinel is the constant `zeroTime`;
* `map[string]Field` is an association list with first-match lookup;
* Go's in-place `sort.SliceStable` is modelled by a stable insertion sort
  (any two stable sorts of the same comparator agree);
* the library matcher `github.com/ryanuber/go-glob`'s `Glob` is embedded in
  full over character lists;
* `strings.ToLower` / `strings.TrimSpace` are embedded in their ASCII
  fragment (the only fragment the repository's comparisons exercise);
* the backward week loop of `splitByWeeks` is expressed with an explicit
  iteration bound (`splitWeeksFuel`), and `splitByWeeksLoop_eq` proves that
  the bounded form satisfies exactly the source loop's step equation, so the
  bound is invisible to the verified behaviour.

The repository contains two generations of some files (the unnamed sources
are an earlier commit).  Where a claim depends on the older generation
(`Item.HasLabel` with case folding, `Section.ExtractAndRender` with regex
branch rules), those older definitions are embedded under `V0` names.
-/

/-- Seconds in one week; windows in `splitByWeeks` are spans of this width. -/
def W : Int := 7 * 86400

/-- Go's `time.Time{}` zero value, used by the code as the "not done"
sentinel (`Item.Done` returns it, `Items.GetOlder` tests against it). -/
def zeroTime : Int := 0

/-- ASCII fragment of Go `strings.ToLower` (maps A-Z to a-z). -/
def strLower (s : String) : String := ⟨s.data.map Char.toLower⟩

/-- ASCII fragment of Go `strings.TrimSpace`: drop whitespace from both ends. -/
def strTrim (s : String) : String :=
  ⟨((s.data.dropWhile Char.isWhitespace).reverse.dropWhile Char.isWhitespace).reverse⟩

/-- Go `strings.Split(p, "*")` specialised to the one-character separator
used by go-glob: split a character list at every occurrence of `c`,
keeping empty parts. -/
def splitOnChar (c : Char) : List Char → List (List Char)
  | [] => [[]]
  | x :: xs =>
    match splitOnChar c xs with
    | [] => [[]]
    | h :: t => if x = c then [] :: h :: t else (x :: h) :: t

/-- Go `strings.Index`: position of the first occurrence of `pat` in `subj`
(`none` models the -1 result). -/
def firstIdx (subj pat : List Char) : Option Nat :=
  if pat.isPrefixOf subj then some 0
  else
    match subj with
    | [] => none
    | _ :: rest => (firstIdx rest pat).map (· + 1)

/-- The loop of go-glob's `Glob` over the middle pattern parts: consume the
first occurrence of each part in turn, returning the remaining subject. -/
def globMid (s : List Char) : List (List Char) → Option (List Char)
  | [] => some s
  | part :: rest =>
    match firstIdx s part with
    | none => none
    | some idx => globMid (s.drop (idx + part.length)) rest

/-- Character-list body of go-glob's `Glob(pattern, subj)`: empty pattern
matches only the empty subject; `"*"` matches everything; a pattern without
`*` is exact equality; otherwise the `*`-separated parts are located left to
right (the first part anchored at position 0 unless the pattern starts with
`*`), and the final part must be a suffix unless the pattern ends with `*`. -/
def globChars (p s : List Char) : Bool :=
  if p = [] then decide (s = p)
  else if p = ['*'] then true
  else
    let parts := splitOnChar '*' p
    if parts.length = 1 then decide (s = p)
    else
      let leading := decide (p.head? = some '*')
      let trailing := decide (p.getLast? = some '*')
      match parts.dropLast with
      | [] => false
      | p0 :: mids =>
        match firstIdx s p0 with
        | none => false
        | some idx =>
          if !leading && decide (idx ≠ 0) then false
          else
            match globMid (s.drop (idx + p0.length)) mids with
            | none => false
            | some sRest => trailing || (parts.getLastD []).isSuffixOf sRest

/-- go-glob `Glob` on strings, as called by `Item.HasLabel`, the title
matcher and `Item.IsBranch` in `structs.go`. -/
def Glob (pat subj : String) : Bool := globChars pat.data subj.data

/-- Field type tags from `structs.go` (`FIELD_EMPTY` ... `FIELD_ITERATION`). -/
def FIELD_EMPTY : Nat := 0

/-- Field type tag for date payloads. -/
def FIELD_DATE : Nat := 1

/-- Field type tag for text payloads. -/
def FIELD_TEXT : Nat := 2

/-- Field type tag for number payloads. -/
def FIELD_NUMBER : Nat := 3

/-- Field type tag for iteration payloads. -/
def FIELD_ITERATION : Nat := 4

/-- `ItemField` embeds `Field` from `structs.go` (the Go name collides with
Mathlib's `Field` class): one record able to carry any payload kind,
selected by `typ` (Go field `Type`, renamed because `Type` is a Lean
keyword).  The float payload `Number` is modelled as an integer: no function
verified here reads it. -/
structure ItemField where
  typ : Nat := FIELD_EMPTY
  Name : String := ""
  Date : Int := zeroTime
  Number : Int := 0
  Text : String := ""
  Duration : Int := 0
  IterationId : String := ""
  StartDate : Int := zeroTime
  Title : String := ""
deriving DecidableEq

/-- The anonymous `Repo` struct nested in `Item`. -/
structure RepoInfo where
  Name : String := ""
  Slug : String := ""
  URL : String := ""
  Branch : String := ""
deriving DecidableEq

/-- `Item` from `structs.go`: a normalized issue / draft issue / PR. -/
structure Item where
  ID : String := ""
  Archived : Bool := false
  Fields : List (String × ItemField) := []
  Labels : List String := []
  DoneAt : Int := zeroTime
  ItemType : String := ""
  Number : Int := 0
  URL : String := ""
  Repo : RepoInfo := {}
deriving DecidableEq

/-- `Item.IsDone`: true iff a `Status` field exists, is text typed and its
text case-insensitively equals "done". -/
def Item.IsDone (it : Item) : Bool :=
  match it.Fields.lookup "Status" with
  | some status => decide (status.typ = FIELD_TEXT) && decide ("done" = strLower status.Text)
  | none => false

/-- `Item.Done`: the completion instant, or the zero sentinel when the item
is not done. -/
def Item.Done (it : Item) : Int :=
  match it.Fields.lookup "Status" with
  | some status =>
    if status.typ = FIELD_TEXT ∧ "done" = strLower status.Text then it.DoneAt else zeroTime
  | none => zeroTime

/-- `Item.Title`: the text of the `Title` field, or the empty string when
the field is absent or not text typed. -/
def Item.Title (it : Item) : String :=
  match it.Fields.lookup "Title" with
  | some status => if status.typ = FIELD_TEXT then status.Text else ""
  | none => ""

/-- `Item.HasLabel` from `structs.go`: the trimmed pattern is glob-matched
against each trimmed label. -/
def Item.HasLabel (it : Item) (l : String) : Bool :=
  it.Labels.any (fun label => Glob (strTrim l) (strTrim label))

/-- The title matcher of `structs.go` (Go method `HasPrefix`, renamed):
glob-match the trimmed pattern followed by `*` against the trimmed title. -/
def Item.HasPrefixGlob (it : Item) (pre : String) : Bool :=
  Glob (strTrim pre ++ "*") (strTrim it.Title)

/-- `Item.IsBranch` from `structs.go`: the item must carry a non-empty repo
slug and a non-empty branch, and both must glob-match their patterns. -/
def Item.IsBranch (it : Item) (org repo branch : String) : Bool :=
  let slug := strTrim org ++ "/" ++ strTrim repo
  decide (it.Repo.Slug.length > 0) && decide (it.Repo.Branch.length > 0) &&
    Glob slug (strTrim it.Repo.Slug) && Glob (strTrim branch) (strTrim it.Repo.Branch)

/-- `Items` from `structs.go`. -/
abbrev Items := List Item

/-- Stable insertion into a list sorted by `Item.Done`; later elements are
placed after earlier equal-keyed ones. -/
def insertByDone (a : Item) : Items → Items
  | [] => [a]
  | x :: xs => if x.Done < a.Done then x :: insertByDone a xs else a :: x :: xs

/-- Stable sort by `Item.Done`, modelling the `sort.SliceStable` call in
`Items.GetDone`. -/
def sortByDone : Items → Items
  | [] => []
  | a :: rest => insertByDone a (sortByDone rest)

/-- Stable insertion into a list sorted by the raw `DoneAt` field. -/
def insertByDoneAt (a : Item) : Items → Items
  | [] => [a]
  | x :: xs => if x.DoneAt < a.DoneAt then x :: insertByDoneAt a xs else a :: x :: xs

/-- Stable sort by the raw `DoneAt` field, modelling the `sort.SliceStable`
call at the top of `splitByWeeks`. -/
def sortByDoneAt : Items → Items
  | [] => []
  | a :: rest => insertByDoneAt a (sortByDoneAt rest)

/-- `Items.GetDone`: the done items, stably sorted by completion time. -/
def Items.GetDone (list : Items) : Items :=
  sortByDone (list.filter (fun it => it.IsDone))

/-- `Items.GetOlder`: the items whose completion time is a real (non-zero)
instant at or before `when`. -/
def Items.GetOlder (list : Items) (when : Int) : Items :=
  list.filter (fun it =>
    decide (¬ it.Done = zeroTime) && (decide (it.Done < when) || decide (it.Done = when)))

/-- `Items.GetInRange`: items with completion time inside `(start, end)` or
exactly at `start`; the bounds are swapped first if given in reverse order. -/
def Items.GetInRange (list : Items) (start end_ : Int) : Items :=
  let p := if start > end_ then (end_, start) else (start, end_)
  list.filter (fun it =>
    (decide (it.Done < p.2) && decide (it.Done > p.1)) || decide (it.Done = p.1))

/-- `Items.ExtractByLabels`: one pass splitting the list into items matching
some label pattern and the rest, order preserved. -/
def Items.ExtractByLabels (list : Items) (labels : List String) : Items × Items :=
  list.partition (fun it => labels.any (fun l => it.HasLabel l))

/-- `Items.ExtractByPrefixes`: one pass splitting the list into items whose
title matches some pattern and the rest, order preserved. -/
def Items.ExtractByPrefixes (list : Items) (pres : List String) : Items × Items :=
  list.partition (fun it => pres.any (fun pre => it.HasPrefixGlob pre))

/-- `Items.ExtractByBranch`: one pass splitting the list into items matching
the org/repo/branch patterns and the rest, order preserved. -/
def Items.ExtractByBranch (list : Items) (org repo branch : String) : Items × Items :=
  list.partition (fun it => it.IsBranch org repo branch)

/-- `WeeklyItems` from `schedule.go`: one report window with its items. -/
structure WeeklyItems where
  Items : Items := []
  Start : Int := 0
  End : Int := 0
deriving DecidableEq

/-- `getClosestSunday`: the most recent Sunday 00:00 (in the model: the
largest multiple of `W`) at or before `now`. -/
def getClosestSunday (now : Int) : Int := now - now % W

/-- `getPreviousSunday`: seven days earlier. -/
def getPreviousSunday (when : Int) : Int := when - W

/-- The real (non-sentinel) completion instants of a list of items. -/
def doneTimes (list : Items) : List Int :=
  list.filterMap (fun it => if it.Done = zeroTime then none else some it.Done)

/-- Least real completion instant of a list, or the default `d` when the
list has none. -/
def minDoneD (list : Items) (d : Int) : Int :=
  match doneTimes list with
  | [] => d
  | t :: ts => ts.foldl min t

/-- Iteration bound for the backward week loop of `splitByWeeks`: the loop
starting from window `[start, start + W)` runs out of candidates after at
most this many iterations. -/
def splitMeasure (list : Items) (start : Int) : Nat :=
  if list.isEmpty then 0 else (start + W - minDoneD list start).toNat + 1

/-- Body of the `for len(list) > 0` loop of `splitByWeeks`, with an explicit
iteration bound `fuel`; `splitByWeeksLoop_eq` shows that with the bound
`splitMeasure list start` this is exactly the source loop. -/
def splitWeeksFuel (fuel : Nat) (list : Items) (start end_ : Int) : List WeeklyItems :=
  match fuel with
  | 0 => []
  | f + 1 =>
    if list.isEmpty then []
    else
      { Items := list.GetInRange start end_, Start := start, End := end_ } ::
        splitWeeksFuel f (list.GetOlder start) (start - W) start

/-- The backward week loop of `splitByWeeks`. -/
def splitByWeeksLoop (list : Items) (start end_ : Int) : List WeeklyItems :=
  splitWeeksFuel (splitMeasure list start) list start end_

/-- `splitByWeeks` from `schedule.go`: sort stably by `DoneAt`, keep the
items due at or before the most recent Sunday boundary, then walk the
window backward week by week until the candidate pool is empty. -/
def splitByWeeks (list : Items) (now : Int) : List WeeklyItems :=
  let end_ := getClosestSunday now
  let start := getPreviousSunday end_
  splitByWeeksLoop ((sortByDoneAt list).GetOlder end_) start end_

/-- `Branch` from `config.go` (current generation): one org/repo/branch
match rule; every component is a glob pattern. -/
structure Branch where
  Org : String := ""
  Repo : String := ""
  Branch : String := ""
deriving DecidableEq

/-- `Match` from `config.go` (current generation): the three ordered clause
families of a section (Go fields `Labels`, `Prefixes`, `Branches`). -/
structure Match where
  Labels : List String := []
  Prefixes : List String := []
  Branches : List Branch := []
deriving DecidableEq

/-- `Section` from `config.go` (current generation). -/
structure Section where
  Name : String := ""
  RenderOrder : Int := 0
  OmitIfEmpty : Bool := false
  MatchOn : Match := {}
deriving DecidableEq

/-- The `for _, b := range s.Match.Branches` loop inside `Section.Extract`:
extract each branch rule in turn from the running remainder, appending the
matches to the running `mine`. -/
def extractBranches (bs : List Branch) (mine left : Items) : Items × Items :=
  match bs with
  | [] => (mine, left)
  | b :: rest =>
    let r := left.ExtractByBranch b.Org b.Repo b.Branch
    extractBranches rest (mine ++ r.1) r.2

/-- `Section.Extract` from `config.go` (current generation): run the label
family, then the title family on its remainder, then every branch rule on
the running remainder; return (matched, remaining). -/
def Section.Extract (s : Section) (list : Items) : Items × Items :=
  let r1 := list.ExtractByLabels s.MatchOn.Labels
  let r2 := r1.2.ExtractByPrefixes s.MatchOn.Prefixes
  extractBranches s.MatchOn.Branches (r1.1 ++ r2.1) r2.2

/-- The section loop of `render` in `main.go`: thread the remainder through
every configured section in input order; the final remainder is the
unclassified bucket. -/
def classifySections (sections : List Section) (list : Items) : List Items × Items :=
  match sections with
  | [] => ([], list)
  | s :: rest =>
    let r := s.Extract list
    let c := classifySections rest r.2
    (r.1 :: c.1, c.2)

/-- `Item.HasLabel` of the earlier generation (`src/unnamed/part_003`):
case is folded, and the pattern `"*"` matches every item outright. -/
def V0.HasLabel (it : Item) (l : String) : Bool :=
  let l' := strLower (strTrim l)
  if l' = "*" then true
  else it.Labels.any (fun label => strLower (strTrim label) = l')

/-- The title matcher of the earlier generation (Go method `HasPrefix` in
`src/unnamed/part_003`): both sides trimmed, then an exact prefix test. -/
def V0.HasPrefixPlain (it : Item) (pre : String) : Bool :=
  (strTrim pre).data.isPrefixOf (strTrim it.Title).data

/-- `Item.IsBranch` of the earlier generation: exact (untrimmed) slug
equality against `trim(org) ++ "/" ++ trim(repo)`, then the compiled branch
regex — abstracted as a predicate `re` — applied to the item's branch. -/
def V0.IsBranch (it : Item) (org repo : String) (re : String → Bool) : Bool :=
  let slug := strTrim org ++ "/" ++ strTrim repo
  if it.Repo.Slug ≠ slug then false
  else re it.Repo.Branch

/-- `Items.ExtractByLabels` of the earlier generation. -/
def V0.ExtractByLabels (list : Items) (labels : List String) : Items × Items :=
  list.partition (fun it => labels.any (fun l => V0.HasLabel it l))

/-- `Items.ExtractByPrefixes` of the earlier generation. -/
def V0.ExtractByPrefixes (list : Items) (pres : List String) : Items × Items :=
  list.partition (fun it => pres.any (fun pre => V0.HasPrefixPlain it pre))

/-- `Items.ExtractByBranch` of the earlier generation (regex variant). -/
def V0.ExtractByBranch (list : Items) (org repo : String) (re : String → Bool) : Items × Items :=
  list.partition (fun it => V0.IsBranch it org repo re)

/-- Branch rule of `config.go` of the earlier generation: the `Branch`
component is a Go regular expression source string. -/
structure V0Branch where
  Org : String := ""
  Repo : String := ""
  Branch : String := ""
deriving DecidableEq

/-- `Section.Match` of the earlier generation (Go fields `Label`, `Prefix`,
`Branch`). -/
structure V0Match where
  Label : List String := []
  Pre : List String := []
  Branch : List V0Branch := []
deriving DecidableEq

/-- `Section` of the earlier generation of `config.go`. -/
structure V0Section where
  Name : String := ""
  RenderOrder : Int := 0
  OmitIfEmpty : Bool := false
  MatchOn : V0Match := {}
deriving DecidableEq

/-- Observable outcome of the earlier generation's `Section.ExtractAndRender`,
keeping the per-family stages separate so that the order in which the source
classifies items and compiles branch patterns stays visible: `labelStage`
and `preStage` are computed by the source before any branch pattern is
compiled; `failed` carries the compile error the source turns into a panic. -/
structure V0Run where
  labelStage : Items := []
  preStage : Items := []
  branchStage : Items := []
  failed : Option String := none
  left : Items := []
deriving DecidableEq

/-- The branch loop of the earlier `Section.ExtractAndRender`: for each rule,
first compile the trimmed pattern (a failure is the source's panic and stops
the loop), then extract the matching items. -/
def V0.branchLoop (compile : String → Except String (String → Bool))
    (bs : List V0Branch) (mine left : Items) : Items × Items × Option String :=
  match bs with
  | [] => (mine, left, none)
  | b :: rest =>
    match compile (strTrim b.Branch) with
    | .error e => (mine, left, some e)
    | .ok re =>
      let r := V0.ExtractByBranch left b.Org b.Repo re
      V0.branchLoop compile rest (mine ++ r.1) r.2

/-- The first compile error produced by scanning the branch rules in order,
if any; `V0.ExtractAndRender` fails with exactly this error. -/
def V0.firstCompileErr (compile : String → Except String (String → Bool))
    (bs : List V0Branch) : Option String :=
  match bs with
  | [] => none
  | b :: rest =>
    match compile (strTrim b.Branch) with
    | .error e => some e
    | .ok _ => V0.firstCompileErr compile rest

/-- `Section.ExtractAndRender` of the earlier generation of `config.go`,
with Go's `regexp.Compile` abstracted as the `compile` parameter: labels are
extracted first, then title patterns from the remainder, and only then is
each branch pattern compiled (an invalid one panics) and extracted. -/
def V0.ExtractAndRender (compile : String → Except String (String → Bool))
    (s : V0Section) (list : Items) : V0Run :=
  let r1 := V0.ExtractByLabels list s.MatchOn.Label
  let r2 := V0.ExtractByPrefixes r1.2 s.MatchOn.Pre
  let r3 := V0.branchLoop compile s.MatchOn.Branch [] r2.2
  { labelStage := r1.1, preStage := r2.1, branchStage := r3.1,
    failed := r3.2.2, left := r3.2.1 }

/-- Concatenation of the item lists of a sequence of windows. -/
def weeksItems (ws : List WeeklyItems) : Items :=
  ws.foldr (fun w acc => w.Items ++ acc) []

/-- Concatenation of a sequence of classification buckets. -/
def bucketsUnion (bs : List Items) : Items :=
  bs.foldr (fun b acc => b ++ acc) []

/-- A text `Status` field carrying "Done" (case differing from "done"). -/
def doneStatusF : ItemField := { typ := FIELD_TEXT, Text := "Done" }

/-- Reference instant used by the concrete window examples: a Wednesday-ish
moment 50 seconds into the fourth week; its window boundary is `3 * W`. -/
def demoNow : Int := 3 * W + 50

/-- A done item completed exactly at the initial window boundary `3 * W`. -/
def itemBoundary : Item := { ID := "boundary", Fields := [("Status", doneStatusF)], DoneAt := 3 * W }

/-- A done item completed strictly inside the most recent window. -/
def itemMid : Item := { ID := "mid", Fields := [("Status", doneStatusF)], DoneAt := 3 * W - 100 }

/-- A done item completed exactly at the start of the most recent window. -/
def itemStart : Item := { ID := "start", Fields := [("Status", doneStatusF)], DoneAt := 2 * W }

/-- A done item two whole weeks older than `itemMid`. -/
def itemOld : Item := { ID := "old", Fields := [("Status", doneStatusF)], DoneAt := W - 100 }

/-- The window `[2W, 3W)` that `splitByWeeks` emits first for `demoNow`. -/
def weekDemo : WeeklyItems := { Items := [itemStart], Start := 2 * W, End := 3 * W }

/-- An item carrying the label "deployment" and a title starting "Update". -/
def itemLabeled : Item :=
  { ID := "labeled", Fields := [("Title", { typ := FIELD_TEXT, Text := "Update Something" })],
    Labels := ["deployment"] }

/-- An item with no fields and no labels at all. -/
def itemBare : Item := { ID := "bare" }

/-- An item whose only label is "Deployment" (capital D). -/
def itemCased : Item := { ID := "cased", Labels := ["Deployment"] }

/-- A section matching the label "deployment" and the title pattern "Update". -/
def sectionDemo : Section :=
  { Name := "demo", MatchOn := { Labels := ["deployment"], Prefixes := ["Update"] } }

/-- Modelled from the spec: Go's `regexp.Compile` (not part of this
repository) succeeds or fails depending only on the pattern; the spec calls
an invalid branch pattern a fatal configuration error.  This stand-in
rejects the single malformed pattern `"("` (an unclosed group, which Go
rejects) and compiles every other pattern to a matcher accepting
everything; only the success/failure split matters to the claims below. -/
def compileDemo (pat : String) : Except String (String → Bool) :=
  if pat = "(" then Except.error "error parsing regexp: missing closing )"
  else Except.ok (fun _ => true)

/-- An earlier-generation section whose label rule matches "deployment" and
whose single branch rule carries the malformed pattern `"("`. -/
def v0SectionDemo : V0Section :=
  { Name := "demo",
    MatchOn := { Label := ["deployment"], Branch := [{ Org := "o", Repo := "r", Branch := "(" }] } }

theorem count_filter' (p : Item → Bool) (l : Items) (it : Item) :
    (l.filter p).count it = if p it then l.count it else 0 := by
  induction l with
  | nil => simp
  | cons x xs ih =>
    by_cases hx : p x <;> by_cases hxi : x = it <;>
      simp [List.filter_cons, List.count_cons, hx, hxi, ih] <;> simp [hxi ▸ hx] at * <;> omega

theorem count_insertByDoneAt (a it : Item) (l : Items) :
    (insertByDoneAt a l).count it = (a :: l).count it := by
  induction l with
  | nil => simp [insertByDoneAt]
  | cons x xs ih =>
    by_cases h : x.DoneAt < a.DoneAt
    · simp [insertByDoneAt, h, List.count_cons, ih]
      omega
    · simp [insertByDoneAt, h]

theorem count_sortByDoneAt (it : Item) (l : Items) :
    (sortByDoneAt l).count it = l.count it := by
  induction l with
  | nil => rfl
  | cons x xs ih => simp [sortByDoneAt, count_insertByDoneAt, List.count_cons, ih]

theorem mem_sortByDoneAt (it : Item) (l : Items) :
    it ∈ sortByDoneAt l ↔ it ∈ l := by
  constructor <;> intro h <;>
    have := count_sortByDoneAt it l <;>
    rw [← List.count_pos_iff] at h ⊢ <;> omega

theorem count_insertByDone (a it : Item) (l : Items) :
    (insertByDone a l).count it = (a :: l).count it := by
  induction l with
  | nil => simp [insertByDone]
  | cons x xs ih =>
    by_cases h : x.Done < a.Done
    · simp [insertByDone, h, List.count_cons, ih]
      omega
    · simp [insertByDone, h]

theorem count_sortByDone (it : Item) (l : Items) :
    (sortByDone l).count it = l.count it := by
  induction l with
  | nil => rfl
  | cons x xs ih => simp [sortByDone, count_insertByDone, List.count_cons, ih]

theorem foldlMin_le_init (t : Int) (ts : List Int) : ts.foldl min t ≤ t := by
  induction ts generalizing t with
  | nil => simp
  | cons x xs ih =>
    have h1 := ih (min t x)
    have hm1 : min t x ≤ t := min_le_left t x
    simp only [List.foldl_cons]
    omega

theorem foldlMin_le (t y : Int) (ts : List Int) (h : y ∈ t :: ts) : ts.foldl min t ≤ y := by
  induction ts generalizing t with
  | nil =>
    simp at h
    simp [h]
  | cons x xs ih =>
    have h1 : List.foldl min (min t x) xs ≤ min t x := foldlMin_le_init _ _
    have hm1 : min t x ≤ t := min_le_left t x
    have hm2 : min t x ≤ x := min_le_right t x
    simp only [List.foldl_cons]
    rcases List.mem_cons.mp h with h2 | h2
    · omega
    rcases List.mem_cons.mp h2 with h3 | h3
    · omega
    · exact ih (min t x) (List.mem_cons_of_mem _ h3)

theorem foldlMin_mem (t : Int) (ts : List Int) : ts.foldl min t ∈ t :: ts := by
  induction ts generalizing t with
  | nil => simp
  | cons x xs ih =>
    have h := ih (min t x)
    simp only [List.foldl_cons]
    rcases List.mem_cons.mp h with h1 | h1
    · rw [h1]
      rcases min_choice t x with hm | hm <;> rw [hm] <;> simp
    · simp [h1]

theorem mem_doneTimes (y : Int) (l : Items) :
    y ∈ doneTimes l ↔ ∃ x ∈ l, x.Done = y ∧ y ≠ zeroTime := by
  simp only [doneTimes, List.mem_filterMap]
  constructor
  · rintro ⟨x, hx, hfn⟩
    by_cases h0 : x.Done = zeroTime <;> simp [h0] at hfn
    exact ⟨x, hx, hfn, hfn ▸ h0⟩
  · rintro ⟨x, hx, hd, h0⟩
    exact ⟨x, hx, by rw [hd, if_neg h0]⟩

theorem doneTimes_getOlder_ne_nil (l : Items) (when : Int)
    (h : (l.GetOlder when).isEmpty = false) : doneTimes (l.GetOlder when) ≠ [] := by
  rw [List.isEmpty_eq_false_iff_exists_mem] at h
  obtain ⟨x, hx⟩ := h
  have hpred := List.of_mem_filter hx
  simp only [Bool.and_eq_true, decide_eq_true_eq] at hpred
  intro hnil
  have : x.Done ∈ doneTimes (l.GetOlder when) :=
    (mem_doneTimes _ _).mpr ⟨x, hx, rfl, hpred.1⟩
  simp [hnil] at this

theorem minDoneD_le (l : Items) (d y : Int) (hy : y ∈ doneTimes l) : minDoneD l d ≤ y := by
  cases hdl : doneTimes l with
  | nil => rw [hdl] at hy; simp at hy
  | cons t ts =>
    rw [hdl] at hy
    simp only [minDoneD, hdl]
    exact foldlMin_le t y ts hy

theorem minDoneD_mem (l : Items) (d : Int) (h : doneTimes l ≠ []) :
    minDoneD l d ∈ doneTimes l := by
  cases hdl : doneTimes l with
  | nil => exact absurd hdl h
  | cons t ts =>
    simp only [minDoneD, hdl]
    exact foldlMin_mem t ts

theorem doneTimes_getOlder_sub (l : Items) (when y : Int)
    (hy : y ∈ doneTimes (l.GetOlder when)) : y ∈ doneTimes l ∧ y ≤ when := by
  rw [mem_doneTimes] at hy
  obtain ⟨x, hx, hd, h0⟩ := hy
  have hpred := List.of_mem_filter hx
  simp only [Bool.and_eq_true, Bool.or_eq_true, decide_eq_true_eq] at hpred
  exact ⟨(mem_doneTimes _ _).mpr ⟨x, List.mem_of_mem_filter hx, hd, h0⟩, by omega⟩

theorem splitMeasure_decr (l : Items) (start : Int) (h : l.isEmpty = false) :
    splitMeasure (l.GetOlder start) (start - W) < splitMeasure l start := by
  by_cases hr : (l.GetOlder start).isEmpty
  · simp [splitMeasure, hr, h]
  · have hr' : (l.GetOlder start).isEmpty = false := by simpa using hr
    have hdr : doneTimes (l.GetOlder start) ≠ [] := doneTimes_getOlder_ne_nil l start hr'
    have hm' := minDoneD_mem (l.GetOlder start) (start - W) hdr
    obtain ⟨hmem, hle⟩ := doneTimes_getOlder_sub l start _ hm'
    have hmle := minDoneD_le l start _ hmem
    have hW : W = 604800 := by norm_num [W]
    simp only [splitMeasure, hr', h, Bool.false_eq_true, if_false]
    omega

theorem splitWeeksFuel_nil (fuel : Nat) (list : Items) (start end_ : Int)
    (h : list.isEmpty = true) : splitWeeksFuel fuel list start end_ = [] := by
  cases fuel with
  | zero => rfl
  | succ f => simp [splitWeeksFuel, h]

theorem splitMeasure_zero (list : Items) (start : Int) (h : splitMeasure list start = 0) :
    list.isEmpty = true := by
  by_cases he : list.isEmpty
  · exact he
  · simp [splitMeasure, he] at h

theorem splitWeeksFuel_congr (f : Nat) : ∀ (g : Nat) (list : Items) (start end_ : Int),
    splitMeasure list start ≤ f → splitMeasure list start ≤ g →
    splitWeeksFuel f list start end_ = splitWeeksFuel g list start end_ := by
  induction f with
  | zero =>
    intro g list start end_ hf _
    have he := splitMeasure_zero list start (Nat.le_zero.mp hf)
    rw [splitWeeksFuel_nil 0 list start end_ he, splitWeeksFuel_nil g list start end_ he]
  | succ f ih =>
    intro g list start end_ hf hg
    cases g with
    | zero =>
      have he := splitMeasure_zero list start (Nat.le_zero.mp hg)
      rw [splitWeeksFuel_nil _ list start end_ he, splitWeeksFuel_nil 0 list start end_ he]
    | succ g =>
      by_cases he : list.isEmpty
      · rw [splitWeeksFuel_nil _ list start end_ he, splitWeeksFuel_nil _ list start end_ he]
      · have he' : list.isEmpty = false := by simpa using he
        have hdec := splitMeasure_decr list start he'
        simp only [splitWeeksFuel, he', Bool.false_eq_true, if_false]
        rw [ih g (list.GetOlder start) (start - W) start (by omega) (by omega)]

/-- The bounded loop with bound `splitMeasure` satisfies exactly the step
equation of the `for len(list) > 0` loop in `splitByWeeks`: stop on an empty
pool, otherwise emit the window `[start, end)` and continue one week back
with the pool narrowed to items at or before `start`. -/
theorem splitByWeeksLoop_eq (list : Items) (start end_ : Int) :
    splitByWeeksLoop list start end_ =
      if list.isEmpty then []
      else
        { Items := list.GetInRange start end_, Start := start, End := end_ } ::
          splitByWeeksLoop (list.GetOlder start) (start - W) start := by
  by_cases he : list.isEmpty
  · simp [splitByWeeksLoop, splitWeeksFuel_nil _ list start end_ he, he]
  · have he' : list.isEmpty = false := by simpa using he
    have hdec := splitMeasure_decr list start he'
    have hm : splitMeasure list start = (start + W - minDoneD list start).toNat + 1 := by
      simp [splitMeasure, he']
    simp only [splitByWeeksLoop, he', Bool.false_eq_true, if_false, hm, splitWeeksFuel]
    congr 1
    exact splitWeeksFuel_congr _ _ _ _ start (by omega) (by omega)

theorem splitWeeksFuel_length (f : Nat) : ∀ (list : Items) (start end_ : Int),
    splitMeasure list start ≤ f →
    (splitWeeksFuel f list start end_).length ≤ splitMeasure list start := by
  induction f with
  | zero => intro list start end_ _; simp [splitWeeksFuel]
  | succ f ih =>
    intro list start end_ hf
    by_cases he : list.isEmpty
    · simp [splitWeeksFuel_nil _ list start end_ he]
    · have he' : list.isEmpty = false := by simpa using he
      have hdec := splitMeasure_decr list start he'
      have := ih (list.GetOlder start) (start - W) start (by omega)
      simp only [splitWeeksFuel, he', Bool.false_eq_true, if_false, List.length_cons]
      omega

theorem splitWeeksFuel_headEnd (f : Nat) (list : Items) (start end_ : Int) (w : WeeklyItems)
    (rest : List WeeklyItems) (h : splitWeeksFuel f list start end_ = w :: rest) :
    w.End = end_ ∧ w.Start = start := by
  cases f with
  | zero => simp [splitWeeksFuel] at h
  | succ f =>
    by_cases he : list.isEmpty
    · rw [splitWeeksFuel_nil _ list start end_ he] at h; simp at h
    · have he' : list.isEmpty = false := by simpa using he
      simp only [splitWeeksFuel, he', Bool.false_eq_true, if_false, List.cons.injEq] at h
      rw [← h.1]
      exact ⟨rfl, rfl⟩

theorem splitWeeksFuel_chain (f : Nat) : ∀ (list : Items) (start end_ : Int),
    List.Chain' (fun a b => b.End = a.Start) (splitWeeksFuel f list start end_) := by
  induction f with
  | zero => intro list start end_; simp [splitWeeksFuel]
  | succ f ih =>
    intro list start end_
    by_cases he : list.isEmpty
    · rw [splitWeeksFuel_nil _ list start end_ he]; simp
    · have he' : list.isEmpty = false := by simpa using he
      simp only [splitWeeksFuel, he', Bool.false_eq_true, if_false]
      rw [List.chain'_cons']
      refine ⟨?_, ih _ _ _⟩
      intro b hb
      cases hh : splitWeeksFuel f (list.GetOlder start) (start - W) start with
      | nil => rw [hh] at hb; simp at hb
      | cons w rest =>
        rw [hh] at hb
        simp at hb
        rw [← hb]
        exact (splitWeeksFuel_headEnd f _ _ _ w rest hh).1

theorem getInRange_eq (list : Items) (s e : Int) (h : ¬ s > e) :
    list.GetInRange s e = list.filter (fun it =>
      (decide (it.Done < e) && decide (it.Done > s)) || decide (it.Done = s)) := by
  simp [Items.GetInRange, h]

theorem hW_val : W = 604800 := by norm_num [W]

theorem mem_splitWeeksFuel (f : Nat) : ∀ (list : Items) (end_ : Int) (w : WeeklyItems),
    (∀ x ∈ list, x.Done ≠ zeroTime ∧ x.Done ≤ end_) →
    w ∈ splitWeeksFuel f list (end_ - W) end_ →
    w.End = w.Start + W ∧ w.End ≤ end_ ∧
      w.Items = list.filter (fun x => decide (w.Start ≤ x.Done) && decide (x.Done < w.End)) := by
  induction f with
  | zero => intro list end_ w _ hw; simp [splitWeeksFuel] at hw
  | succ f ih =>
    intro list end_ w hinv hw
    by_cases he : list.isEmpty
    · rw [splitWeeksFuel_nil _ _ _ _ he] at hw; simp at hw
    · have he' : list.isEmpty = false := by simpa using he
      simp only [splitWeeksFuel, he', Bool.false_eq_true, if_false, List.mem_cons] at hw
      rcases hw with hw | hw
      · subst hw
        refine ⟨by simp, by simp, ?_⟩
        have hr := getInRange_eq list (end_ - W) end_ (by have := hW_val; omega)
        simp only [hr]
        apply List.filter_congr
        intro x _
        have hWv := hW_val
        by_cases h1 : end_ - W ≤ x.Done <;> by_cases h2 : x.Done < end_ <;>
          simp [h1, h2] <;> omega
      · have hinv' : ∀ x ∈ list.GetOlder (end_ - W), x.Done ≠ zeroTime ∧ x.Done ≤ end_ - W := by
          intro x hx
          have hpred := List.of_mem_filter hx
          simp only [Bool.and_eq_true, Bool.or_eq_true, decide_eq_true_eq] at hpred
          exact ⟨hpred.1, by omega⟩
        have hih := ih (list.GetOlder (end_ - W)) (end_ - W) w hinv' (by
          have : end_ - W - W = (end_ - W) - W := by ring
          rw [← this]; exact hw)
        refine ⟨hih.1, by have := hih.2.1; have := hW_val; omega, ?_⟩
        rw [hih.2.2]
        simp only [Items.GetOlder, List.filter_filter]
        apply List.filter_congr
        intro x hx
        have hx0 := (hinv x hx).1
        have hEnd := hih.2.1
        by_cases h1 : w.Start ≤ x.Done <;> by_cases h2 : x.Done < w.End <;>
          simp [h1, h2, hx0] <;> omega

theorem count_splitWeeksFuel (f : Nat) : ∀ (list : Items) (end_ : Int) (it : Item),
    splitMeasure list (end_ - W) ≤ f →
    (∀ x ∈ list, x.Done ≠ zeroTime ∧ x.Done ≤ end_) →
    (weeksItems (splitWeeksFuel f list (end_ - W) end_)).count it =
      (list.filter (fun x => decide (x.Done < end_))).count it := by
  induction f with
  | zero =>
    intro list end_ it hf _
    have he := splitMeasure_zero _ _ (Nat.le_zero.mp hf)
    rw [List.isEmpty_iff] at he
    subst he
    simp [splitWeeksFuel, weeksItems]
  | succ f ih =>
    intro list end_ it hf hinv
    by_cases he : list.isEmpty
    · rw [List.isEmpty_iff] at he
      subst he
      simp [splitWeeksFuel, weeksItems]
    · have he' : list.isEmpty = false := by simpa using he
      have hdec := splitMeasure_decr list (end_ - W) he'
      have hinv' : ∀ x ∈ list.GetOlder (end_ - W), x.Done ≠ zeroTime ∧ x.Done ≤ end_ - W := by
        intro x hx
        have hpred := List.of_mem_filter hx
        simp only [Bool.and_eq_true, Bool.or_eq_true, decide_eq_true_eq] at hpred
        exact ⟨hpred.1, by omega⟩
      have hih := ih (list.GetOlder (end_ - W)) (end_ - W) it (by
        have harg : end_ - W - W = (end_ - W) - W := by ring
        omega) hinv'
      simp only [splitWeeksFuel, he', Bool.false_eq_true, if_false]
      show ((list.GetInRange (end_ - W) end_) ++
        weeksItems (splitWeeksFuel f (list.GetOlder (end_ - W)) (end_ - W - W) (end_ - W))).count it = _
      rw [List.count_append]
      rw [hih]
      rw [getInRange_eq list (end_ - W) end_ (by have := hW_val; omega)]
      by_cases hmem : it ∈ list
      · obtain ⟨hd0, hdle⟩ := hinv it hmem
        simp only [Items.GetOlder, List.filter_filter]
        rw [count_filter', count_filter', count_filter']
        have hWv := hW_val
        have hW0 : (0:Int) < W := by omega
        by_cases h1 : it.Done < end_ - W <;> by_cases h2 : it.Done = end_ - W <;>
          by_cases h3 : it.Done < end_ <;>
          simp [h1, h2, h3, hd0, hW0] <;> omega
      · have hc : list.count it = 0 := List.count_eq_zero.mpr hmem
        have hc1 : (list.filter (fun x =>
            (decide (x.Done < end_) && decide (x.Done > end_ - W)) ||
              decide (x.Done = end_ - W))).count it = 0 := by
          rw [count_filter']; simp [hc]
        have hc2 : ((list.GetOlder (end_ - W)).filter
            (fun x => decide (x.Done < end_ - W))).count it = 0 := by
          simp only [Items.GetOlder, List.filter_filter]
          rw [count_filter']; simp [hc]
        have hc3 : (list.filter (fun x => decide (x.Done < end_))).count it = 0 := by
          rw [count_filter']; simp [hc]
        omega

theorem getOlder_inv (l : Items) (when : Int) :
    ∀ x ∈ l.GetOlder when, x.Done ≠ zeroTime ∧ x.Done ≤ when := by
  intro x hx
  have hpred := List.of_mem_filter hx
  simp only [Bool.and_eq_true, Bool.or_eq_true, decide_eq_true_eq] at hpred
  exact ⟨hpred.1, by omega⟩

theorem extractByLabels_perm (list : Items) (labels : List String) :
    List.Perm ((list.ExtractByLabels labels).1 ++ (list.ExtractByLabels labels).2) list := by
  simp only [Items.ExtractByLabels, List.partition_eq_filter_filter]
  exact List.filter_append_perm _ list

theorem extractByPrefixes_perm (list : Items) (pres : List String) :
    List.Perm ((list.ExtractByPrefixes pres).1 ++ (list.ExtractByPrefixes pres).2) list := by
  simp only [Items.ExtractByPrefixes, List.partition_eq_filter_filter]
  exact List.filter_append_perm _ list

theorem extractByBranch_perm (list : Items) (org repo branch : String) :
    List.Perm ((list.ExtractByBranch org repo branch).1 ++
      (list.ExtractByBranch org repo branch).2) list := by
  simp only [Items.ExtractByBranch, List.partition_eq_filter_filter]
  exact List.filter_append_perm _ list

theorem extractBranches_perm (bs : List Branch) : ∀ (mine left : Items),
    List.Perm ((extractBranches bs mine left).1 ++ (extractBranches bs mine left).2)
      (mine ++ left) := by
  induction bs with
  | nil => intro mine left; simp [extractBranches]
  | cons b rest ih =>
    intro mine left
    simp only [extractBranches]
    refine (ih _ _).trans ?_
    rw [List.append_assoc]
    exact List.Perm.append_left mine (extractByBranch_perm left b.Org b.Repo b.Branch)

theorem extract_perm (s : Section) (list : Items) :
    List.Perm ((s.Extract list).1 ++ (s.Extract list).2) list := by
  simp only [Section.Extract]
  refine (extractBranches_perm _ _ _).trans ?_
  rw [List.append_assoc]
  refine (List.Perm.append_left _ (extractByPrefixes_perm _ _)).trans ?_
  exact extractByLabels_perm list _

theorem extractBranches_left_count (bs : List Branch) : ∀ (mine left : Items) (it : Item),
    (extractBranches bs mine left).2.count it ≤ left.count it := by
  induction bs with
  | nil => intro mine left it; simp [extractBranches]
  | cons b rest ih =>
    intro mine left it
    simp only [extractBranches]
    refine (ih _ _ it).trans ?_
    simp only [Items.ExtractByBranch, List.partition_eq_filter_filter]
    rw [count_filter']
    split <;> omega

theorem v0BranchLoop_failed (compile : String → Except String (String → Bool))
    (bs : List V0Branch) : ∀ (mine left : Items),
    (V0.branchLoop compile bs mine left).2.2 = V0.firstCompileErr compile bs := by
  induction bs with
  | nil => intro mine left; rfl
  | cons b rest ih =>
    intro mine left
    simp only [V0.branchLoop, V0.firstCompileErr]
    cases compile (strTrim b.Branch) with
    | error e => rfl
    | ok re => exact ih _ _

/-- C3: chaining `Section.Extract` over an item list, each section consuming
the previous section's remainder (the section loop of `render`), partitions
the list exactly: the concatenation of all section buckets and the final
unclassified remainder is a permutation of the input, so every item lands in
exactly one bucket, none lost and none duplicated. -/
theorem c3_partition_completeness (sections : List Section) (list : Items) :
    List.Perm
      (bucketsUnion (classifySections sections list).1 ++ (classifySections sections list).2)
      list := by
  induction sections generalizing list with
  | nil => simp [classifySections, bucketsUnion]
  | cons s rest ih =>
    have hx : classifySections (s :: rest) list =
        ((s.Extract list).1 :: (classifySections rest (s.Extract list).2).1,
          (classifySections rest (s.Extract list).2).2) := rfl
    rw [hx]
    have hb : bucketsUnion ((s.Extract list).1 :: (classifySections rest (s.Extract list).2).1) =
        (s.Extract list).1 ++ bucketsUnion (classifySections rest (s.Extract list).2).1 := rfl
    rw [hb, List.append_assoc]
    exact (List.Perm.append_left _ (ih ((s.Extract list).2))).trans (extract_perm s list)

/-- C4: inside one section the clause families run in the fixed order
labels, prefixes, branches, each consuming its matches from the pool before
the next family runs; an item matched by the label family therefore lands in
the label-family output with all its occurrences, contributes nothing to the
prefix stage, appears in the section's matched output exactly as often as in
the input, and never in the remainder — even if it also matches a prefix or
branch pattern. -/
theorem c4_first_family_wins (s : Section) (list : Items) (it : Item)
    (h : s.MatchOn.Labels.any (fun l => it.HasLabel l) = true) :
    (list.ExtractByLabels s.MatchOn.Labels).1.count it = list.count it ∧
    ((list.ExtractByLabels s.MatchOn.Labels).2.ExtractByPrefixes
      s.MatchOn.Prefixes).1.count it = 0 ∧
    (s.Extract list).1.count it = list.count it ∧
    (s.Extract list).2.count it = 0 := by
  have hm1 : (list.ExtractByLabels s.MatchOn.Labels).1.count it = list.count it := by
    simp only [Items.ExtractByLabels, List.partition_eq_filter_filter]
    rw [count_filter']
    simp [h]
  have hl1 : (list.ExtractByLabels s.MatchOn.Labels).2.count it = 0 := by
    simp only [Items.ExtractByLabels, List.partition_eq_filter_filter]
    rw [count_filter']
    simp [h]
  have hm2 : ((list.ExtractByLabels s.MatchOn.Labels).2.ExtractByPrefixes
      s.MatchOn.Prefixes).1.count it = 0 := by
    simp only [Items.ExtractByPrefixes, List.partition_eq_filter_filter]
    rw [count_filter']
    split
    · exact hl1
    · rfl
  have hl2 : ((list.ExtractByLabels s.MatchOn.Labels).2.ExtractByPrefixes
      s.MatchOn.Prefixes).2.count it = 0 := by
    simp only [Items.ExtractByPrefixes, List.partition_eq_filter_filter]
    rw [count_filter']
    split
    · exact hl1
    · rfl
  refine ⟨hm1, hm2, ?_⟩
  have hperm := extractBranches_perm s.MatchOn.Branches
    ((list.ExtractByLabels s.MatchOn.Labels).1 ++
      ((list.ExtractByLabels s.MatchOn.Labels).2.ExtractByPrefixes s.MatchOn.Prefixes).1)
    ((list.ExtractByLabels s.MatchOn.Labels).2.ExtractByPrefixes s.MatchOn.Prefixes).2
  have hcount := hperm.count_eq it
  rw [List.count_append, List.count_append, List.count_append] at hcount
  have hble := extractBranches_left_count s.MatchOn.Branches
    ((list.ExtractByLabels s.MatchOn.Labels).1 ++
      ((list.ExtractByLabels s.MatchOn.Labels).2.ExtractByPrefixes s.MatchOn.Prefixes).1)
    (((list.ExtractByLabels s.MatchOn.Labels).2.ExtractByPrefixes s.MatchOn.Prefixes).2) it
  simp only [Section.Extract]
  omega

/-- C4 witness: a concrete item labelled "deployment" whose title also
matches the section's prefix pattern is counted once, under the label rule. -/
theorem c4_witness :
    sectionDemo.MatchOn.Labels.any (fun l => itemLabeled.HasLabel l) = true ∧
    ((Items.ExtractByLabels [itemLabeled] sectionDemo.MatchOn.Labels).1.count itemLabeled =
        List.count itemLabeled [itemLabeled] ∧
      (Items.ExtractByPrefixes
        (Items.ExtractByLabels [itemLabeled] sectionDemo.MatchOn.Labels).2
        sectionDemo.MatchOn.Prefixes).1.count itemLabeled = 0 ∧
      (sectionDemo.Extract [itemLabeled]).1.count itemLabeled =
        List.count itemLabeled [itemLabeled] ∧
      (sectionDemo.Extract [itemLabeled]).2.count itemLabeled = 0) :=
  ⟨by decide, c4_first_family_wins sectionDemo [itemLabeled] itemLabeled (by decide)⟩

/-- C5 counterexample: under the glob-based `Item.HasLabel` of
`src/structs.go`, the pattern "*" does NOT match an item with no labels
(the loop body never runs), and "deployment" does NOT match the label
"Deployment" (a starless glob is case-sensitive equality), refuting the
claim as stated for that generation of the matcher. -/
theorem c5_counterexample :
    Item.HasLabel itemBare "*" = false ∧
    Item.HasLabel itemCased "deployment" = false ∧
    "Deployment" ∈ itemCased.Labels := by decide

/-- C5 amended: the claimed behaviour is that of the earlier-generation
matcher (`src/unnamed/part_003`): a trimmed, case-folded pattern "*"
matches every item outright, even one without labels, and any label equal
to the pattern up to trimming and ASCII case matches. -/
theorem c5_wildcard_and_case_fold :
    (∀ it : Item, V0.HasLabel it "*" = true) ∧
    (∀ (it : Item) (l lab : String), lab ∈ it.Labels →
      strLower (strTrim lab) = strLower (strTrim l) → V0.HasLabel it l = true) := by
  constructor
  · intro it
    rfl
  · intro it l lab hmem heq
    simp only [V0.HasLabel]
    by_cases hstar : strLower (strTrim l) = "*"
    · simp [hstar]
    · simp only [hstar, if_false, List.any_eq_true]
      exact ⟨lab, hmem, by simp [heq]⟩

/-- C5 witness: the wildcard matches the label-less item, and the pattern
"deployment" matches the item labelled "Deployment". -/
theorem c5_witness :
    V0.HasLabel itemBare "*" = true ∧ V0.HasLabel itemCased "deployment" = true :=
  ⟨c5_wildcard_and_case_fold.1 itemBare,
    c5_wildcard_and_case_fold.2 itemCased "deployment" "Deployment" (by decide) (by decide)⟩

/-- C6 counterexample: with a section whose branch rule carries an invalid
pattern and whose label rule matches the input item, the earlier-generation
`Section.ExtractAndRender` does fail — but only after the label family has
already classified the item, refuting "the failure is raised before any
item is classified". -/
theorem c6_counterexample :
    (V0.ExtractAndRender compileDemo v0SectionDemo [itemLabeled]).failed.isSome = true ∧
    (V0.ExtractAndRender compileDemo v0SectionDemo [itemLabeled]).labelStage =
      [itemLabeled] := by decide

/-- C6 amended: an invalid branch pattern in a section is fatal for that
section's extraction — `ExtractAndRender` fails exactly when compiling some
branch pattern fails, with the first such rule's error, once per rule rather
than per item — but the failure is raised only after the section's label and
prefix families have fully classified the items (their stages equal the
unconditional extraction results). -/
theorem c6_branch_compile_failure (compile : String → Except String (String → Bool))
    (s : V0Section) (list : Items) :
    (V0.ExtractAndRender compile s list).failed =
      V0.firstCompileErr compile s.MatchOn.Branch ∧
    (V0.ExtractAndRender compile s list).labelStage =
      (V0.ExtractByLabels list s.MatchOn.Label).1 ∧
    (V0.ExtractAndRender compile s list).preStage =
      (V0.ExtractByPrefixes (V0.ExtractByLabels list s.MatchOn.Label).2 s.MatchOn.Pre).1 := by
  refine ⟨?_, rfl, rfl⟩
  exact v0BranchLoop_failed compile s.MatchOn.Branch _ _

/-- C7: `Item.IsBranch` matches iff the item carries a non-empty repository
slug AND a non-empty branch AND both glob-match their patterns; in
particular an item with an empty slug or an empty branch never matches any
(org, repo, branch) rule. -/
theorem c7_branch_requires_slug_and_branch (it : Item) (org repo branch : String) :
    it.IsBranch org repo branch = true ↔
      (it.Repo.Slug ≠ "" ∧ it.Repo.Branch ≠ "" ∧
        Glob (strTrim org ++ "/" ++ strTrim repo) (strTrim it.Repo.Slug) = true ∧
        Glob (strTrim branch) (strTrim it.Repo.Branch) = true) := by
  have hlen : ∀ s : String, s.length > 0 ↔ s ≠ "" := by
    intro s
    rw [String.length]
    cases s with
    | mk data =>
      simp [String.ext_iff]
      cases data <;> simp
  simp only [Item.IsBranch, Bool.and_eq_true, decide_eq_true_eq]
  rw [hlen, hlen]
  tauto

/-- C8: classification and windowing are total over arbitrary items — an
item whose `Status` field is missing, not text-typed, or not equal to
"done" up to case is not done, its effective completion time is the zero
sentinel, and it is excluded from `GetDone` and from `GetOlder` at every
instant; likewise a missing or non-text `Title` field yields the empty
title. -/
theorem c8_totality (it : Item) :
    ((it.Fields.lookup "Status" = none ∨
      (∃ f, it.Fields.lookup "Status" = some f ∧
        (f.typ ≠ FIELD_TEXT ∨ ¬ "done" = strLower f.Text))) →
      it.IsDone = false ∧ it.Done = zeroTime ∧
      (∀ l : Items, l.GetDone.count it = 0) ∧
      (∀ (l : Items) (when : Int), (l.GetOlder when).count it = 0)) ∧
    ((it.Fields.lookup "Title" = none ∨
      (∃ f, it.Fields.lookup "Title" = some f ∧ f.typ ≠ FIELD_TEXT)) →
      it.Title = "") := by
  constructor
  · intro h
    have hdone : it.IsDone = false := by
      unfold Item.IsDone
      rcases h with h | ⟨f, hf, hcase⟩
      · simp [h]
      · rw [hf]
        rcases hcase with hc | hc <;> simp [hc]
    have hzero : it.Done = zeroTime := by
      unfold Item.Done
      rcases h with h | ⟨f, hf, hcase⟩
      · simp [h]
      · rw [hf]
        show (if f.typ = FIELD_TEXT ∧ "done" = strLower f.Text then it.DoneAt else zeroTime) =
          zeroTime
        rw [if_neg]
        intro hboth
        rcases hcase with hc | hc
        · exact hc hboth.1
        · exact hc hboth.2
    refine ⟨hdone, hzero, ?_, ?_⟩
    · intro l
      simp only [Items.GetDone]
      rw [count_sortByDone, count_filter']
      simp [hdone]
    · intro l when
      simp only [Items.GetOlder]
      rw [count_filter']
      simp [hzero]
  · intro h
    unfold Item.Title
    rcases h with h | ⟨f, hf, hc⟩
    · simp [h]
    · rw [hf]
      simp [hc]

/-- C8 witness: the field-less item is not done, carries the sentinel
completion time, is excluded from both time-based queries, and has the
empty title. -/
theorem c8_witness :
    itemBare.IsDone = false ∧ itemBare.Done = zeroTime ∧
    (Items.GetDone [itemBoundary, itemBare]).count itemBare = 0 ∧
    (Items.GetOlder [itemBare] 5).count itemBare = 0 ∧
    itemBare.Title = "" :=
  have h := c8_totality itemBare
  have h1 := h.1 (Or.inl (by decide))
  ⟨h1.1, h1.2.1, h1.2.2.1 [itemBoundary, itemBare], h1.2.2.2 [itemBare] 5,
    h.2 (Or.inl (by decide))⟩

/-- C1 counterexample: a done item completed exactly at the initial window
boundary (the most recent Sunday at or before `now`) survives the initial
`GetOlder end` filter but is selected by no window — the first window is
`[end - W, end)` and the pool is then cut to items at or before `end - W` —
so it appears in zero emitted buckets, not one. -/
theorem c1_counterexample :
    itemBoundary.Done ≠ zeroTime ∧
    itemBoundary.Done = getClosestSunday demoNow ∧
    (weeksItems (splitByWeeks [itemBoundary] demoNow)).count itemBoundary = 0 ∧
    List.count itemBoundary [itemBoundary] = 1 := by decide

/-- C1 amended: every item whose effective completion time is a real
instant strictly before the initial window boundary appears in the emitted
buckets exactly as often as in the input list — no such item is dropped or
duplicated; an item completed exactly at the boundary is dropped (see the
counterexample). -/
theorem c1_window_coverage (list : Items) (now : Int) (it : Item)
    (h0 : it.Done ≠ zeroTime) (hlt : it.Done < getClosestSunday now) :
    (weeksItems (splitByWeeks list now)).count it = list.count it := by
  have hup := count_splitWeeksFuel
    (splitMeasure ((sortByDoneAt list).GetOlder (getClosestSunday now))
      (getClosestSunday now - W))
    ((sortByDoneAt list).GetOlder (getClosestSunday now)) (getClosestSunday now) it
    (le_refl _) (getOlder_inv _ _)
  have hshape : splitByWeeks list now =
      splitWeeksFuel
        (splitMeasure ((sortByDoneAt list).GetOlder (getClosestSunday now))
          (getClosestSunday now - W))
        ((sortByDoneAt list).GetOlder (getClosestSunday now))
        (getClosestSunday now - W) (getClosestSunday now) := rfl
  rw [hshape, hup]
  simp only [Items.GetOlder, List.filter_filter]
  have hcond : (decide (it.Done < getClosestSunday now) &&
      (decide (¬it.Done = zeroTime) &&
        (decide (it.Done < getClosestSunday now) ||
          decide (it.Done = getClosestSunday now)))) = true := by
    simp [h0, hlt]
  rw [count_filter', if_pos hcond, count_sortByDoneAt]

/-- C1 witness: an item done strictly inside the most recent week is
covered exactly once. -/
theorem c1_witness :
    itemMid.Done ≠ zeroTime ∧ itemMid.Done < getClosestSunday demoNow ∧
    (weeksItems (splitByWeeks [itemMid] demoNow)).count itemMid =
      List.count itemMid [itemMid] :=
  ⟨by decide, by decide, c1_window_coverage [itemMid] demoNow itemMid (by decide) (by decide)⟩

/-- C2: an item completed exactly at the start boundary of an emitted
window belongs to that window — membership in the window whose `Start`
equals its completion time — and never to a window whose `End` equals its
completion time: selection is inclusive at `Start` and exclusive at `End`. -/
theorem c2_boundary_tiebreak (list : Items) (now : Int) (w : WeeklyItems) (it : Item)
    (hw : w ∈ splitByWeeks list now) (h0 : it.Done ≠ zeroTime) (hs : it.Done = w.Start) :
    (it ∈ list → it ∈ w.Items) ∧
      ∀ w' ∈ splitByWeeks list now, w'.End = it.Done → it ∉ w'.Items := by
  have hWv := hW_val
  have hshape : splitByWeeks list now =
      splitWeeksFuel
        (splitMeasure ((sortByDoneAt list).GetOlder (getClosestSunday now))
          (getClosestSunday now - W))
        ((sortByDoneAt list).GetOlder (getClosestSunday now))
        (getClosestSunday now - W) (getClosestSunday now) := rfl
  rw [hshape] at hw
  have hchar := mem_splitWeeksFuel _ _ (getClosestSunday now) w (getOlder_inv _ _) hw
  constructor
  · intro hmem
    rw [hchar.2.2, List.mem_filter]
    have hle : it.Done ≤ getClosestSunday now - W := by
      have h1 := hchar.1
      have h2 := hchar.2.1
      omega
    refine ⟨List.mem_filter.mpr ⟨(mem_sortByDoneAt it list).mpr hmem, ?_⟩, ?_⟩
    · simp only [Bool.and_eq_true, Bool.or_eq_true, decide_eq_true_eq]
      exact ⟨h0, by omega⟩
    · simp only [Bool.and_eq_true, decide_eq_true_eq]
      have h1 := hchar.1
      exact ⟨by omega, by omega⟩
  · intro w' hw' hEnd hmem'
    rw [hshape] at hw'
    have hchar' := mem_splitWeeksFuel _ _ (getClosestSunday now) w' (getOlder_inv _ _) hw'
    rw [hchar'.2.2] at hmem'
    have hp := List.of_mem_filter hmem'
    simp only [Bool.and_eq_true, decide_eq_true_eq] at hp
    omega

/-- C2 witness: the item done exactly at `2W` lands in the emitted window
`[2W, 3W)` whose `Start` it equals, and in no window ending at `2W`. -/
theorem c2_witness :
    (itemStart ∈ [itemStart] → itemStart ∈ weekDemo.Items) ∧
      ∀ w' ∈ splitByWeeks [itemStart] demoNow, w'.End = itemStart.Done →
        itemStart ∉ w'.Items :=
  c2_boundary_tiebreak [itemStart] demoNow weekDemo itemStart (by decide) (by decide) (by decide)

/-- C9: the backward week loop terminates — the number of emitted windows is
bounded by the explicit measure, which every iteration strictly decreases
(`splitMeasure_decr`) because the boundary walks back seven days at a time
and completion times are bounded below by the pool's minimum. -/
theorem c9_termination_bound (list : Items) (now : Int) :
    (splitByWeeks list now).length ≤
      splitMeasure ((sortByDoneAt list).GetOlder (getClosestSunday now))
        (getClosestSunday now - W) :=
  splitWeeksFuel_length _ _ _ _ (le_refl _)

/-- C10: the emitted windows are gapless — each later-emitted bucket's `End`
equals the previous bucket's `Start` — and idle weeks are still emitted: for
two concrete items two whole weeks apart the middle week appears as a bucket
with an empty item list. -/
theorem c10_contiguous_windows :
    (∀ (list : Items) (now : Int),
      List.Chain' (fun a b => b.End = a.Start) (splitByWeeks list now)) ∧
    (splitByWeeks [itemMid, itemOld] demoNow).map (fun w => w.Items.length) = [1, 0, 1] := by
  constructor
  · intro list now
    exact splitWeeksFuel_chain _ _ _ _
  · decide
